import Mathlib

/-!
# Verification of the Tecplot frame parser (`parse.c`, `parse2.c`)

This file gives a shallow embedding of the slice (byte-view) library, the
tokenizer, the zone-header parser, the numeric block reader, the
connectivity / interpolation-weight loop of `src/parse.c`, and the
frame splitter of `src/parse2.c`, and proves or refutes the frozen claims
about them.

Modelling conventions:
* A C `slice_t` is a `Slice`: a declared length `len` together with the
  list of bytes from the slice pointer to the end of the underlying
  null-terminated allocation (`buf`).  The view proper is `buf.take len`;
  keeping the rest of `buf` is essential because several C functions
  (`strncmp`-based comparisons, `atoi`, `strcspn`, `strspn`) read the
  underlying buffer past the view's declared end.
* C strings are `List Char`; the terminating NUL is implicit at the end
  of the list, and an interior `'\0'` terminates scans exactly as in C.
* `double` arithmetic of the interpolation engine is embedded over `ℚ`
  (exact field arithmetic); machine integers are `Int`/`Nat`.
-/

namespace ParseHall

/-- Predicate `isspace` from `<ctype.h>` restricted to the default C locale. -/
def isspaceChar (c : Char) : Bool :=
  c == ' ' || c == '\t' || c == '\n' || c == '\x0b' || c == '\x0c' || c == '\r'

/-- Model of C `slice_t`: declared length plus the bytes from the slice
pointer to the end of the underlying buffer (NUL implicit at list end). -/
structure Slice where
  len : Nat
  buf : List Char
deriving DecidableEq, Repr

/-- The bytes actually inside the view. -/
def Slice.view (s : Slice) : List Char := s.buf.take s.len

/-- Build a slice covering a whole string, as the C macro
`slice(buf) = {strlen(buf), buf}` does on a fresh buffer. -/
def mkSlice (str : String) : Slice := ⟨str.toList.length, str.toList⟩

/-- Comparison `strncmp(a, b, n) == 0`: compare at most `n` bytes, stopping early at a
common NUL terminator (end of list counts as NUL). -/
def strncmpEq : List Char → List Char → Nat → Bool
  | _, _, 0 => true
  | a, b, n+1 =>
    let ca := a.headD '\x00'
    let cb := b.headD '\x00'
    if ca ≠ cb then false
    else if ca = '\x00' then true
    else strncmpEq a.tail b.tail n

/-- Scan `strcspn(l, reject)`: length of the initial segment of the C string `l`
containing no byte of `reject` (scan stops at NUL). -/
def strcspn (l reject : List Char) : Nat :=
  (l.takeWhile (fun c => !(reject.contains c) && c != '\x00')).length

/-- Scan `strspn(l, accept)`: length of the initial segment of the C string `l`
made only of bytes of `accept` (scan stops at NUL). -/
def strspn (l accept : List Char) : Nat :=
  (l.takeWhile (fun c => reject_free c)).length
where
  reject_free (c : Char) : Bool := c != '\x00' && accept.contains c

/-- Length `strlen`: number of bytes before the first NUL. -/
def strlenC (l : List Char) : Nat :=
  (l.takeWhile (fun c => c != '\x00')).length

/-- Function `sl_cspan` from parse.c: `strcspn` on the underlying buffer, clamped
to the view length. -/
def sl_cspan (s : Slice) (reject : List Char) : Nat :=
  min (strcspn s.buf reject) s.len

/-- Function `sl_span` from parse.c: `strspn` on the underlying buffer, clamped
to the view length. -/
def sl_span (s : Slice) (accept : List Char) : Nat :=
  min (strspn s.buf accept) s.len

/-- Function `slice_prefix(s, i)`: first `i` bytes of the view.  The underlying
buffer pointer is unchanged, so bytes beyond the new length remain
reachable through `buf` — exactly as in C. -/
def slice_prefix (s : Slice) (i : Nat) : Slice :=
  ⟨min i s.len, s.buf⟩

/-- Function `slice_suffix(s, i)`: the view from byte `i` on. -/
def slice_suffix (s : Slice) (i : Nat) : Slice :=
  let j := min i s.len
  ⟨s.len - j, s.buf.drop j⟩

/-- Function `get_slice_index`: python-style index resolution (negative indices
count from the end). -/
def get_slice_index (i : Int) (len : Nat) : Nat :=
  if 0 ≤ i then i.toNat else len - (-i).toNat

/-- Function `reslice(s, i, j)`: the `[i, j)` sub-view, with python-style indices. -/
def reslice (s : Slice) (i j : Int) : Slice :=
  let i' := get_slice_index i s.len
  let j' := get_slice_index j s.len
  ⟨j' - i', s.buf.drop i'⟩

/-- Equality `sl_eq`: length equality plus `strncmp` over the first `len` bytes. -/
def sl_eq (s1 s2 : Slice) : Bool :=
  if s1.len ≠ s2.len then false else strncmpEq s1.buf s2.buf s1.len

/-- Comparison `sl_eqstr(s, c) = (strncmp(s.buf, c, s.len) == 0)`. -/
def sl_eqstr (s : Slice) (c : List Char) : Bool :=
  strncmpEq s.buf c s.len

/-- Comparison `sl_startswith(s, x) = (strncmp(x.buf, s.buf, x.len) == 0)`. -/
def sl_startswith (s x : Slice) : Bool :=
  strncmpEq x.buf s.buf x.len

/-- Comparison `sl_startswithstr(s, str) = (strncmp(str, s.buf, strlen(str)) == 0)`. -/
def sl_startswithstr (s : Slice) (str : List Char) : Bool :=
  strncmpEq str s.buf (strlenC str)

/-- Function `sl_lstrip`: count leading whitespace of the view, return the count and
the suffix view after it. -/
def sl_lstrip (s : Slice) : Nat × Slice :=
  let i := (s.view.takeWhile isspaceChar).length
  (i, slice_suffix s i)

/-- Function `sl_rstrip`: scan trailing whitespace of the view; return the index one
past the last non-whitespace byte (the length of the remaining span) and
the prefix view up to it. -/
def sl_rstrip (s : Slice) : Nat × Slice :=
  let t := (s.view.reverse.takeWhile isspaceChar).length
  let i := s.len - t
  (i, slice_prefix s i)

/-- Function `sl_strip`: strip both ends; return `orig_len - new_len` and the
stripped view. -/
def sl_strip (s : Slice) : Nat × Slice :=
  let l := sl_lstrip s
  let r := sl_rstrip l.2
  (s.len - r.2.len, r.2)

/-- Wrapper `slice_lstrip`: value-returning wrapper around `sl_lstrip`. -/
def slice_lstrip (s : Slice) : Slice := (sl_lstrip s).2

/-- Wrapper `slice_strip`: value-returning wrapper around `sl_strip`. -/
def slice_strip (s : Slice) : Slice := (sl_strip s).2

/-- Tokenizer `slice_tok(s, delimiters)`: the token before the first delimiter byte,
paired with the rest of the view after skipping the following run of
delimiter bytes (the C function mutates `s` to the second component). -/
def slice_tok (s : Slice) (delimiters : List Char) : Slice × Slice :=
  let p := sl_cspan s delimiters
  let token := slice_prefix s p
  let suffix := slice_suffix s p
  let d := sl_span suffix delimiters
  (token, slice_suffix suffix d)

/-- Line reader `slice_getline(s) = slice_tok(s, "\r\n")`. -/
def slice_getline (s : Slice) : Slice × Slice :=
  slice_tok s ['\r', '\n']

/-- Digit-accumulation loop of `atoi`. -/
def atoiLoop : List Char → Nat → Nat
  | [], acc => acc
  | c :: rest, acc =>
    if c.isDigit then atoiLoop rest (10 * acc + (c.toNat - 48)) else acc

/-- Conversion `atoi` on a C string: skip leading whitespace, optional sign, then
digits; stops at the first non-digit byte. -/
def atoi (l : List Char) : Int :=
  let l' := l.dropWhile isspaceChar
  match l' with
  | '-' :: rest => -(atoiLoop rest 0 : Int)
  | '+' :: rest => (atoiLoop rest 0 : Int)
  | _ => (atoiLoop l' 0 : Int)

/-! ## Zone descriptor parsing (`read_tecplot_frame`, parse.c lines 664-693) -/

/-- The four integers produced by the zone-line pair loop.  All are
initialised to `-1` and there is no check, after the loop, that `N` or
`E` was actually present. -/
structure ZoneInfo where
  num_nodes : Int
  num_cells : Int
  first_cell : Int
  last_cell : Int
deriving DecidableEq, Repr

/-- Initial values before the pair loop: `num_nodes = num_cells =
first_cell = last_cell = -1`. -/
def zoneInit : ZoneInfo := ZoneInfo.mk (-1) (-1) (-1) (-1)

/-- One iteration body of the pair loop: split `pair` at `=`, compare the
key against `"N"`, `"E"` and `"VARLOCATION"`, and update the matching
field (unknown keys are ignored). -/
def updateZonePair (pair : Slice) (z : ZoneInfo) : ZoneInfo :=
  let kp := slice_tok pair ['=']
  let key := kp.1
  let val := kp.2
  if sl_eq key (mkSlice "N") then
    ZoneInfo.mk (atoi val.buf) z.num_cells z.first_cell z.last_cell
  else if sl_eq key (mkSlice "E") then
    ZoneInfo.mk z.num_nodes (atoi val.buf) z.first_cell z.last_cell
  else if sl_eq key (mkSlice "VARLOCATION") then
    let v0 := reslice val 1 (-1)
    let t1 := slice_tok v0 ['=']
    let v1 := reslice t1.1 1 (-1)
    let t2 := slice_tok v1 ['-']
    ZoneInfo.mk z.num_nodes z.num_cells (atoi t2.1.buf - 1) (atoi t2.2.buf - 1)
  else z

/-- The `while ((pair = slice_tok(&line, ", ")).len > 0)` loop.  Fuel-based
recursion; every productive iteration consumes at least one byte of the
view, so `line.len + 1` fuel always suffices. -/
def parseZonePairs : Nat → Slice → ZoneInfo → ZoneInfo
  | 0, _, z => z
  | fuel+1, line, z =>
    let t := slice_tok line [',', ' ']
    if t.1.len = 0 then z
    else parseZonePairs fuel t.2 (updateZonePair t.1 z)

/-- Zone-descriptor parsing as in parse.c: drop the 4-byte `"ZONE"`
prefix, strip, then run the pair loop.  The function is total: when both
`N` and `E` are absent the corresponding fields simply stay `-1` and the
caller proceeds to use them. -/
def parseZoneLine (line : Slice) : ZoneInfo :=
  let l := slice_strip (slice_suffix line 4)
  parseZonePairs (l.len + 1) l zoneInit

/-! ## Connectivity reading (parse.c lines 716-731) -/

/-- Reading one element's connectivity row: four `slice_tok(&line, " ")`
tokens, each converted with `atoi` and stored as-is
(`cell_connectivity[j + cell_size*i] = node_ind;` — no index adjustment). -/
def readConnRow (line : Slice) : List Int × Slice :=
  let t1 := slice_tok line [' ']
  let t2 := slice_tok t1.2 [' ']
  let t3 := slice_tok t2.2 [' ']
  let t4 := slice_tok t3.2 [' ']
  ([atoi t1.1.buf, atoi t2.1.buf, atoi t3.1.buf, atoi t4.1.buf], t4.2)

/-- Lookup `zn[j] = node_data[var_ind*num_nodes + node_ind]` — the stored
connectivity entry is used directly as the flat row offset. -/
def nodeLookup (node_data : List ℚ) (var_ind num_nodes : Nat) (node_ind : Int) : ℚ :=
  node_data.getD (var_ind * num_nodes + node_ind.toNat) 0

/-! ## Interpolation weights (parse.c lines 707-751), over exact `ℚ`
arithmetic -/

/-- Center accumulation `z_cell += zn[j] * inv_n` with `inv_n = 1.0 / cell_size = 1/4`,
accumulated over the element's four nodes. -/
def cellCenter (xs : List ℚ) : ℚ :=
  xs.foldl (fun acc x => acc + x * (1/4)) 0

/-- Squared distance from a node to the cell center:
`dz*dz + dr*dr`. -/
def dist2 (z r zc rc : ℚ) : ℚ :=
  (z - zc) * (z - zc) + (r - rc) * (r - rc)

/-- Unnormalised weights `wt[j] = 1.0 / dist2`.  There is no guard against
`dist2 == 0`: the division happens unconditionally. -/
def rawWeights (zn rn : List ℚ) : List ℚ :=
  (List.zip zn rn).map
    (fun p => 1 / dist2 p.1 p.2 (cellCenter zn) (cellCenter rn))

/-- Sum `sumwt`, the accumulated sum of the unnormalised weights. -/
def sumWeights (zn rn : List ℚ) : ℚ := (rawWeights zn rn).sum

/-- Normalisation `wt[j] /= sumwt`: the normalised weights stored into the weight
matrix. -/
def normWeights (zn rn : List ℚ) : List ℚ :=
  (rawWeights zn rn).map (fun w => w / sumWeights zn rn)

/-! ## Numeric block reader (parse.c lines 695-705)

The two reading loops write consecutive `atof`-parsed line values into a
`calloc`-zeroed array over an index range.  `vals` abstracts the sequence
`atof(line.buf)` of successive `slice_getline` results; when the text runs
out `slice_getline` yields empty tokens and `atof` returns `0.0`, which is
what `headD 0` mirrors. -/

/-- Loop `for (i = start; i < start+n; i++) arr[i] = atof(getline());` -/
def fillRange : List ℚ → Nat → Nat → List ℚ → List ℚ × List ℚ
  | arr, _, 0, vals => (arr, vals)
  | arr, i, n+1, vals =>
    fillRange (arr.set i (vals.headD 0)) (i+1) n vals.tail

/-- The two block-reading loops: `num_node_vars*num_nodes` values into the
zeroed node table from flat index 0, then values into the zeroed cell
table for flat indices `[2*num_cells, num_cell_vars*num_cells)`.
Returns (node table, cell table, unconsumed values). -/
def readDataBlocks (nv nn cv nc : Nat) (vals : List ℚ) :
    List ℚ × List ℚ × List ℚ :=
  let r1 := fillRange (List.replicate (nv*nn) 0) 0 (nv*nn) vals
  let r2 := fillRange (List.replicate (cv*nc) 0) (2*nc) (cv*nc - 2*nc) r1.2
  (r1.1, r2.1, r2.2)

end ParseHall

namespace ParseHall.P2

/-! ## The frame splitter of `src/parse2.c` (`read_tecplot_frame`,
`read_tecplot_file`)

`FILE*` access is modelled by the unread bytes plus the `feof` flag
(set only when a read actually hits end-of-input). -/

/-- Stream state: unread bytes and the end-of-file indicator. -/
structure FileSt where
  pending : List Char
  eof : Bool
deriving DecidableEq, Repr

/-- Bytes read by one `fgets` call with buffer size `n+1`: up to `n`
bytes, through the first newline. -/
def takeLine : Nat → List Char → List Char
  | 0, _ => []
  | _+1, [] => []
  | n+1, c :: rest => if c = '\n' then [c] else c :: takeLine n rest

/-- Model of `fgets(linebuf, 80, f)`.  At end-of-input it returns NULL and leaves
the buffer untouched, setting `feof`; otherwise it reads up to 79 bytes
through the first newline, and sets `feof` only if the read stopped
because the input ran out. -/
def fgets80 (st : FileSt) (linebuf : List Char) : List Char × FileSt :=
  if st.pending = [] then (linebuf, FileSt.mk [] true)
  else
    let line := takeLine 79 st.pending
    let rest := st.pending.drop line.length
    let hitEof := rest.isEmpty && !(line.getLast? == some '\n')
      && decide (line.length < 79)
    (line, FileSt.mk rest (st.eof || hitEof))

/-- The line loop of `read_tecplot_frame`: read lines until `feof`; a line
starting with `TITLE` is skipped when it is the first line examined and
ends the frame otherwise; other non-empty lines are appended to the frame
buffer and the line buffer's first byte is zeroed. -/
def frameLoop : Nat → FileSt → List Char → List Char → Nat → List Char × FileSt
  | 0, st, _, acc, _ => (acc, st)
  | fuel+1, st, linebuf, acc, linenum =>
    if st.eof then (acc, st)
    else
      let r := fgets80 st linebuf
      let lb := r.1
      let st' := r.2
      if sl_startswithstr ⟨lb.length, lb⟩ "TITLE".toList then
        if linenum > 0 then (acc, st')
        else frameLoop fuel st' lb acc (linenum+1)
      else if lb ≠ [] then
        frameLoop fuel st' [] (acc ++ lb) (linenum+1)
      else frameLoop fuel st' lb acc (linenum+1)

/-- Model of `read_tecplot_frame(f, &len)` on a whole input: returns the frame's
accumulated bytes and the stream state after it. -/
def read_tecplot_frame (st : FileSt) (fuel : Nat) : List Char × FileSt :=
  frameLoop fuel st [] [] 0

/-- Model of `read_tecplot_file`: `while (!feof(f) && i < 2)` — at most two frames
are read; each frame's raw bytes are collected. -/
def read_tecplot_file (input : List Char) : List (List Char) :=
  let fuel := input.length + 2
  let st0 := FileSt.mk input false
  if st0.eof then []
  else
    let r1 := read_tecplot_frame st0 fuel
    if r1.2.eof then [r1.1]
    else
      let r2 := read_tecplot_frame r1.2 fuel
      [r1.1, r2.1]

end ParseHall.P2

namespace ParseHall

/-! ## Helper lemmas -/

/-- Dropping while a predicate holds is dropping the length of the
matching initial segment. -/
theorem dropWhile_eq_drop_len {α : Type} (q : α → Bool) :
    ∀ l : List α, l.dropWhile q = l.drop (l.takeWhile q).length := by
  intro l
  induction l with
  | nil => rfl
  | cons x xs ih =>
    by_cases hq : q x
    · simp [List.dropWhile_cons, List.takeWhile_cons, hq, ih]
    · simp [List.dropWhile_cons, List.takeWhile_cons, hq]

/-- A prefix shorter than the matching initial segment is the same taken
from the whole list. -/
theorem take_takeWhile_eq_take {α : Type} (q : α → Bool) :
    ∀ (l : List α) (p : Nat), p ≤ (l.takeWhile q).length →
      (l.takeWhile q).take p = l.take p := by
  intro l
  induction l with
  | nil => intro p _; simp
  | cons x xs ih =>
    intro p hp
    by_cases hq : q x
    · cases p with
      | zero => simp
      | succ p' =>
        simp only [List.takeWhile_cons, hq, if_true, List.take_succ_cons]
        simp only [List.takeWhile_cons, hq, if_true, List.length_cons,
          Nat.succ_le_succ_iff] at hp
        rw [ih p' hp]
    · rw [List.takeWhile_cons, if_neg (by simpa using hq)] at hp
      simp only [List.length_nil, Nat.le_zero] at hp
      subst hp; simp

/-- Every element of a prefix no longer than the matching initial segment
satisfies the predicate. -/
theorem mem_take_of_le_takeWhile {α : Type} (q : α → Bool) (l : List α)
    (p : Nat) (hp : p ≤ (l.takeWhile q).length) :
    ∀ c ∈ l.take p, q c = true := by
  intro c hc
  rw [← take_takeWhile_eq_take q l p hp] at hc
  exact List.mem_takeWhile_imp (List.mem_of_mem_take hc)

/-- Comparison `strncmp` returns 0 whenever the first `n` characters (NUL-padded)
agree. -/
theorem strncmpEq_of_take_eq :
    ∀ (n : Nat) (a b : List Char), a.take n = b.take n →
      strncmpEq a b n = true := by
  intro n
  induction n with
  | zero => intro a b _; rfl
  | succ n' ih =>
    intro a b hab
    cases a with
    | nil =>
      have hb : b = [] := by
        rcases List.take_eq_nil_iff.1 hab.symm with h | h
        · omega
        · exact h
      subst hb; simp [strncmpEq]
    | cons x a' =>
      cases b with
      | nil => simp at hab
      | cons y b' =>
        simp only [List.take_succ_cons, List.cons.injEq] at hab
        obtain ⟨rfl, htail⟩ := hab
        by_cases hx : x = '\x00'
        · simp [strncmpEq, hx]
        · simp [strncmpEq, hx, ih a' b' htail]

/-- Filling a range with successive values overwrites exactly that range
and consumes exactly that many values. -/
theorem fillRange_spec :
    ∀ (n : Nat) (arr : List ℚ) (i : Nat) (vals : List ℚ),
      i + n ≤ arr.length → n ≤ vals.length →
      fillRange arr i n vals
        = (arr.take i ++ vals.take n ++ arr.drop (i+n), vals.drop n) := by
  intro n
  induction n with
  | zero =>
    intro arr i vals _ _
    simp [fillRange, List.take_append_drop]
  | succ n' ih =>
    intro arr i vals harr hv
    cases vals with
    | nil => simp at hv
    | cons v vt =>
      have hstep : fillRange arr i (n'+1) (v :: vt)
          = fillRange (arr.set i v) (i+1) n' vt := rfl
      have hlt : i < arr.length := by omega
      have harr' : (i+1) + n' ≤ (arr.set i v).length := by
        rw [List.length_set]; omega
      have hv' : n' ≤ vt.length := by simpa using hv
      rw [hstep, ih (arr.set i v) (i+1) vt harr' hv']
      have hset : arr.set i v = arr.take i ++ v :: arr.drop (i+1) := by
        rw [List.set_eq_take_append_cons_drop]; simp [hlt]
      have hlen_take : (arr.take i).length = i := by
        simp; omega
      have h1 : (arr.set i v).take (i+1) = arr.take i ++ [v] := by
        rw [hset]
        have hii : i + 1 = (arr.take i).length + 1 := by omega
        rw [hii, List.take_append]
        simp
      have h2 : (arr.set i v).drop (i+1+n') = arr.drop (i+(n'+1)) := by
        rw [hset]
        have hii : i + 1 + n' = (arr.take i).length + (1 + n') := by omega
        rw [hii, List.drop_append, Nat.add_comm 1 n', List.drop_succ_cons,
          List.drop_drop]
        congr 1
        omega
      rw [h1, h2]
      simp [List.append_assoc]

/-- The matching initial segment is never longer than the list. -/
theorem takeWhile_length_le {α : Type} (q : α → Bool) :
    ∀ l : List α, (l.takeWhile q).length ≤ l.length := by
  intro l
  induction l with
  | nil => simp
  | cons x xs ih =>
    by_cases hq : q x
    · simp only [List.takeWhile_cons, hq, if_true, List.length_cons]
      omega
    · simp [List.takeWhile_cons, hq]

/-- Behaviour of `sl_lstrip` on an in-bounds view: the return value is the
number of removed bytes and the view becomes the span after the leading
whitespace. -/
theorem sl_lstrip_spec (s : Slice) (h : s.len ≤ s.buf.length) :
    (sl_lstrip s).1 = s.len - (sl_lstrip s).2.len
    ∧ (sl_lstrip s).2.view = s.view.dropWhile isspaceChar := by
  have hvlen : s.view.length = s.len := by
    simp only [Slice.view, List.length_take]
    omega
  have hi : (s.view.takeWhile isspaceChar).length ≤ s.len := by
    have := takeWhile_length_le isspaceChar s.view
    omega
  have hmin : min (s.view.takeWhile isspaceChar).length s.len
      = (s.view.takeWhile isspaceChar).length := Nat.min_eq_left hi
  have h2 : (sl_lstrip s).2
      = Slice.mk (s.len - (s.view.takeWhile isspaceChar).length)
          (s.buf.drop ((s.view.takeWhile isspaceChar).length)) := by
    simp only [sl_lstrip, slice_suffix, hmin]
  constructor
  · rw [h2]
    show (s.view.takeWhile isspaceChar).length
      = s.len - (s.len - (s.view.takeWhile isspaceChar).length)
    omega
  · rw [h2]
    show (s.buf.drop ((s.view.takeWhile isspaceChar).length)).take
        (s.len - (s.view.takeWhile isspaceChar).length)
      = s.view.dropWhile isspaceChar
    rw [dropWhile_eq_drop_len]
    show _ = (s.buf.take s.len).drop ((s.view.takeWhile isspaceChar).length)
    rw [List.drop_take]

/-- Behaviour of `sl_rstrip` on an in-bounds view: the return value is the
length of the remaining span and the view becomes the span before the
trailing whitespace. -/
theorem sl_rstrip_spec (s : Slice) (h : s.len ≤ s.buf.length) :
    (sl_rstrip s).1 = (sl_rstrip s).2.len
    ∧ (sl_rstrip s).2.view = (s.view.reverse.dropWhile isspaceChar).reverse := by
  have hvlen : s.view.length = s.len := by
    simp only [Slice.view, List.length_take]
    omega
  have ht : (s.view.reverse.takeWhile isspaceChar).length ≤ s.len := by
    have := takeWhile_length_le isspaceChar s.view.reverse
    simp only [List.length_reverse] at this
    omega
  have h2 : (sl_rstrip s).2
      = Slice.mk (s.len - (s.view.reverse.takeWhile isspaceChar).length)
          s.buf := by
    simp only [sl_rstrip, slice_prefix, Nat.min_eq_left (Nat.sub_le _ _)]
  constructor
  · show s.len - (s.view.reverse.takeWhile isspaceChar).length = _
    rw [h2]
  · rw [h2]
    show s.buf.take (s.len - (s.view.reverse.takeWhile isspaceChar).length)
      = (s.view.reverse.dropWhile isspaceChar).reverse
    rw [dropWhile_eq_drop_len, List.reverse_drop]
    simp only [List.length_reverse, List.reverse_reverse, hvlen]
    show _ = (s.buf.take s.len).take (s.len - _)
    rw [List.take_take, Nat.min_eq_left (Nat.sub_le _ _)]

/-! ## Claim theorems -/

/-- Claim C1: the spec says each connectivity token is converted from the
1-indexed file form to 0-indexed (file value v stored as v-1) before being
stored and used for node lookups.  The code stores the raw `atoi` value
with no adjustment: on the connectivity line given as the spec scenario
(values 1 2 3 4 over node_count 4) the stored row is [1, 2, 3, 4], not
[0, 1, 2, 3]; the last stored index 4 is not a valid 0-based index for 4
nodes, and the stored index is fed directly into the node-table offset, so
file value 1 reads the second node value (20) instead of the first
(10). -/
theorem c1_connectivity_stored_without_conversion :
    (readConnRow (slice_lstrip (slice_getline (mkSlice "1 2 3 4\n")).1)).1
        = [1, 2, 3, 4]
    ∧ (readConnRow (slice_lstrip (slice_getline (mkSlice "1 2 3 4\n")).1)).1
        ≠ [0, 1, 2, 3]
    ∧ ¬ (((readConnRow (slice_lstrip
          (slice_getline (mkSlice "1 2 3 4\n")).1)).1.getD 3 0) < (4 : Int))
    ∧ nodeLookup [10, 20, 30, 40] 0 4 1 = 20
    ∧ nodeLookup [10, 20, 30, 40] 0 4 1 ≠ 10 := by
  refine ⟨by decide, by decide, by decide, ?_, ?_⟩
  · norm_num [nodeLookup]
  · norm_num [nodeLookup]

/-- Claim C2: the spec says a zone line lacking `N` (or `E`) is a fatal
MalformedHeader condition that aborts the run.  The zone-line parser of
`read_tecplot_frame` has no such check: on a zone line without `N` it
returns normally with `num_nodes` still at its sentinel `-1`, and the
caller proceeds to allocate and read with that count. -/
theorem c2_missing_N_returns_minus_one :
    parseZoneLine (mkSlice "ZONE E=10, VARLOCATION=([3-3]=CELLCENTERED)")
      = ZoneInfo.mk (-1) 10 2 2 := by decide

/-- Claim C3: the spec says a node coinciding with the element center must
raise a fatal DegenerateGeometry error instead of dividing by zero.  The
weight loop divides unconditionally: on a fully degenerate element (all
four nodes at the origin) each squared distance is exactly 0 and the
computation still completes and returns a weight row (over the exact `ℚ`
embedding the unguarded `1 / 0` divisions produce 0-weights whose sum is
0, not 1; in IEEE doubles they produce +inf and then NaN).  No error
outcome exists anywhere in the computation. -/
theorem c3_zero_distance_not_guarded :
    dist2 0 0 (cellCenter [0, 0, 0, 0]) (cellCenter [0, 0, 0, 0]) = 0
    ∧ normWeights [0, 0, 0, 0] [0, 0, 0, 0] = [0, 0, 0, 0]
    ∧ (normWeights [0, 0, 0, 0] [0, 0, 0, 0]).sum ≠ 1 := by
  refine ⟨?_, ?_, ?_⟩
  · norm_num [dist2, cellCenter]
  · norm_num [normWeights, rawWeights, sumWeights, dist2, cellCenter]
  · norm_num [normWeights, rawWeights, sumWeights, dist2, cellCenter]

/-- Claim C4: the spec says splitting an input with exactly two TITLE
lines yields 2 frames whose raw spans concatenate back to the input.  The
parse2.c splitter does yield 2 frames, but it consumes every line starting
with TITLE without copying it into any frame buffer, so the concatenation
of the two frames is missing both marker lines and differs from the
input. -/
theorem c4_split_two_titles_drops_marker_bytes :
    P2.read_tecplot_file ("TITLE a\nxx\nTITLE b\nyy\n".toList)
      = ["xx\n".toList, "yy\n".toList]
    ∧ ("xx\n".toList ++ "yy\n".toList) ≠ "TITLE a\nxx\nTITLE b\nyy\n".toList := by
  constructor
  · decide
  · decide

/-- Claim C8: the spec says the prefix comparison must return false when
the literal is longer than the view, without reading past the view.  Both
comparison functions call `strncmp` bounded only by the literal length on
the underlying buffer: for the 3-byte view "Hel" of the buffer
"Hello, world!" and the 5-byte literal "Hello" they return true, having
compared bytes at offsets 3 and 4 that lie beyond the view. -/
theorem c8_startswith_longer_literal_returns_true :
    (Slice.mk 3 "Hello, world!".toList).view = "Hel".toList
    ∧ (Slice.mk 3 "Hello, world!".toList).len < (Slice.mk 5 "Hello".toList).len
    ∧ sl_startswith (Slice.mk 3 "Hello, world!".toList)
        (Slice.mk 5 "Hello".toList) = true
    ∧ sl_startswithstr (Slice.mk 3 "Hello, world!".toList)
        "Hello".toList = true := by
  refine ⟨by decide, by decide, by decide, by decide⟩

/-- Claim C7 counterexample: `sl_rstrip` on the view "ab " returns 2, the
length of the remaining span, while the number of bytes it removed is 1 —
so the claim that each stripping operation returns the count of removed
bytes fails for the trailing strip. -/
theorem c7_rstrip_return_counterexample :
    (sl_rstrip (mkSlice "ab ")).1 = 2
    ∧ (mkSlice "ab ").len - ((sl_rstrip (mkSlice "ab ")).2).len = 1
    ∧ (sl_rstrip (mkSlice "ab ")).1
        ≠ (mkSlice "ab ").len - ((sl_rstrip (mkSlice "ab ")).2).len := by
  refine ⟨by decide, by decide, by decide⟩

/-- Claim C7 amended: each stripping operation mutates the view to the
remaining span; the leading strip and the both-ends strip return the count
of removed bytes, but the trailing strip returns the length of the
remaining span (the index of the first trailing whitespace byte), not the
count it removed. -/
theorem c7_strip_operations_amended (s : Slice) (h : s.len ≤ s.buf.length) :
    ((sl_lstrip s).1 = s.len - (sl_lstrip s).2.len
      ∧ (sl_lstrip s).2.view = s.view.dropWhile isspaceChar)
    ∧ ((sl_rstrip s).1 = (sl_rstrip s).2.len
      ∧ (sl_rstrip s).2.view
          = (s.view.reverse.dropWhile isspaceChar).reverse)
    ∧ ((sl_strip s).1 = s.len - (sl_strip s).2.len
      ∧ (sl_strip s).2.view
          = ((s.view.dropWhile isspaceChar).reverse.dropWhile
              isspaceChar).reverse) := by
  have hlspec := sl_lstrip_spec s h
  have h' : (sl_lstrip s).2.len ≤ (sl_lstrip s).2.buf.length := by
    simp only [sl_lstrip, slice_suffix, List.length_drop]
    omega
  have hrspec := sl_rstrip_spec (sl_lstrip s).2 h'
  refine ⟨hlspec, sl_rstrip_spec s h, rfl, ?_⟩
  show (sl_rstrip (sl_lstrip s).2).2.view = _
  rw [hrspec.2, hlspec.2]

/-- Claim C7 witness: the amended statement evaluated on the slice test
string used by parse.c, with four leading and two trailing whitespace
bytes. -/
theorem c7_strip_operations_amended_witness :
    (mkSlice "  ab c\t ").len ≤ (mkSlice "  ab c\t ").buf.length
    ∧ ((sl_lstrip (mkSlice "  ab c\t ")).1
          = (mkSlice "  ab c\t ").len
              - (sl_lstrip (mkSlice "  ab c\t ")).2.len
        ∧ (sl_lstrip (mkSlice "  ab c\t ")).2.view
          = (mkSlice "  ab c\t ").view.dropWhile isspaceChar)
    ∧ ((sl_strip (mkSlice "  ab c\t ")).1
          = (mkSlice "  ab c\t ").len
              - (sl_strip (mkSlice "  ab c\t ")).2.len
        ∧ (sl_strip (mkSlice "  ab c\t ")).2.view
          = (((mkSlice "  ab c\t ").view.dropWhile
                isspaceChar).reverse.dropWhile isspaceChar).reverse) :=
  ⟨by decide,
   (c7_strip_operations_amended (mkSlice "  ab c\t ") (by decide)).1,
   (c7_strip_operations_amended (mkSlice "  ab c\t ") (by decide)).2.2⟩

/-- Claim C9: `sl_eqstr` compares only the first `s.len` bytes, so when the
view of `s` is a strict prefix of the C string `c` it returns true even
though the two are different strings. -/
theorem c9_eqstr_ignores_cstring_tail (s : Slice) (c : List Char)
    (hlen : s.len ≤ s.buf.length) (hlong : s.len < c.length)
    (hagree : s.buf.take s.len = c.take s.len) :
    sl_eqstr s c = true ∧ s.view ≠ c := by
  constructor
  · exact strncmpEq_of_take_eq s.len s.buf c hagree
  · intro hv
    have hvl : s.view.length = s.len := by
      simp only [Slice.view, List.length_take]
      omega
    rw [hv] at hvl
    omega

/-- Claim C9 witness: the 2-byte view "ab" of buffer "abX" against the
C string "abc". -/
theorem c9_eqstr_ignores_cstring_tail_witness :
    ((Slice.mk 2 "abX".toList).len ≤ (Slice.mk 2 "abX".toList).buf.length
      ∧ (Slice.mk 2 "abX".toList).len < "abc".toList.length
      ∧ (Slice.mk 2 "abX".toList).buf.take (Slice.mk 2 "abX".toList).len
          = "abc".toList.take (Slice.mk 2 "abX".toList).len)
    ∧ (sl_eqstr (Slice.mk 2 "abX".toList) "abc".toList = true
      ∧ (Slice.mk 2 "abX".toList).view ≠ "abc".toList) :=
  ⟨⟨by decide, by decide, by decide⟩,
   c9_eqstr_ignores_cstring_tail (Slice.mk 2 "abX".toList) "abc".toList
     (by decide) (by decide) (by decide)⟩

/-- Partition facts for token, delimiter run and remainder, stated over
the explicit scan lengths. -/
theorem tok_partition_aux (buf d : List Char) (len P D : Nat)
    (hP : P ≤ len) (hD : D ≤ len - P)
    (hPs : P ≤ strcspn buf d) (hDs : D ≤ strspn (buf.drop P) d) :
    buf.take P ++ (buf.drop P).take D
        ++ ((buf.drop P).drop D).take (len - P - D) = buf.take len
    ∧ (∀ c ∈ buf.take P, c ∉ d)
    ∧ (∀ c ∈ (buf.drop P).take D, c ∈ d) := by
  refine ⟨?_, ?_, ?_⟩
  · conv_rhs => rw [(by omega : len = P + (len - P)), List.take_add]
    conv_rhs => rw [(by omega : len - P = D + (len - P - D)), List.take_add]
    rw [List.append_assoc]
  · intro c hc
    have hq := mem_take_of_le_takeWhile
      (fun c => !(d.contains c) && c != '\x00') buf P hPs c hc
    simp only [Bool.and_eq_true, Bool.not_eq_true', bne_iff_ne] at hq
    have hnot : c ∉ d := by simpa using hq.1
    exact hnot
  · intro c hc
    have hq := mem_take_of_le_takeWhile
      (strspn.reject_free d) (buf.drop P) D hDs c hc
    simp only [strspn.reject_free, Bool.and_eq_true, bne_iff_ne] at hq
    simpa using hq.2

/-- Claim C10: `slice_tok` partitions the view exactly: the returned token
is a delimiter-free prefix of the view, it is followed by a run of bytes
all in the delimiter set, the updated view is exactly the remainder after
that run, and the three lengths sum to the original view length. -/
theorem c10_slice_tok_partitions (s : Slice) (d : List Char) :
    (slice_tok s d).1.view
        ++ (s.view.drop (slice_tok s d).1.len).take
            (s.len - (slice_tok s d).1.len - (slice_tok s d).2.len)
        ++ (slice_tok s d).2.view = s.view
    ∧ (slice_tok s d).1.len
        + (s.len - (slice_tok s d).1.len - (slice_tok s d).2.len)
        + (slice_tok s d).2.len = s.len
    ∧ (∀ c ∈ (slice_tok s d).1.view, c ∉ d)
    ∧ (∀ c ∈ (s.view.drop (slice_tok s d).1.len).take
            (s.len - (slice_tok s d).1.len - (slice_tok s d).2.len), c ∈ d) := by
  have hp : sl_cspan s d ≤ s.len := Nat.min_le_right _ _
  have hsuf : slice_suffix s (sl_cspan s d)
      = Slice.mk (s.len - sl_cspan s d) (s.buf.drop (sl_cspan s d)) := by
    simp only [slice_suffix, Nat.min_eq_left hp]
  have hD' : sl_span (slice_suffix s (sl_cspan s d)) d
      ≤ s.len - sl_cspan s d := by
    rw [hsuf]
    exact Nat.min_le_right _ _
  have hDs : sl_span (slice_suffix s (sl_cspan s d)) d
      ≤ strspn (s.buf.drop (sl_cspan s d)) d := by
    rw [hsuf]
    exact Nat.min_le_left _ _
  have htok1 : (slice_tok s d).1 = Slice.mk (sl_cspan s d) s.buf := by
    show slice_prefix s (sl_cspan s d) = _
    simp only [ slice_prefix, Nat.min_eq_left hp]
  have htok2 : (slice_tok s d).2
      = Slice.mk
          (s.len - sl_cspan s d
            - sl_span (slice_suffix s (sl_cspan s d)) d)
          ((s.buf.drop (sl_cspan s d)).drop
            (sl_span (slice_suffix s (sl_cspan s d)) d)) := by
    show slice_suffix (slice_suffix s (sl_cspan s d))
        (sl_span (slice_suffix s (sl_cspan s d)) d) = _
    rw [hsuf]
    simp only [slice_suffix]
    rw [Nat.min_eq_left
      (show sl_span
          (Slice.mk (s.len - sl_cspan s d) (s.buf.drop (sl_cspan s d))) d
        ≤ s.len - sl_cspan s d from Nat.min_le_right _ _)]
  have hrestlen : s.len - (slice_tok s d).1.len - (slice_tok s d).2.len
      = sl_span (slice_suffix s (sl_cspan s d)) d := by
    rw [htok1, htok2]
    show s.len - sl_cspan s d
        - (s.len - sl_cspan s d - sl_span (slice_suffix s (sl_cspan s d)) d)
      = sl_span (slice_suffix s (sl_cspan s d)) d
    omega
  have hrun : (s.view.drop (slice_tok s d).1.len).take
      (s.len - (slice_tok s d).1.len - (slice_tok s d).2.len)
      = (s.buf.drop (sl_cspan s d)).take
          (sl_span (slice_suffix s (sl_cspan s d)) d) := by
    rw [hrestlen, htok1]
    show ((s.buf.take s.len).drop (sl_cspan s d)).take
        (sl_span (slice_suffix s (sl_cspan s d)) d) = _
    rw [List.drop_take, List.take_take, Nat.min_eq_left hD']
  have haux := tok_partition_aux s.buf d s.len (sl_cspan s d)
      (sl_span (slice_suffix s (sl_cspan s d)) d) hp hD'
      (Nat.min_le_left _ _) hDs
  refine ⟨?_, ?_, ?_, ?_⟩
  · rw [hrun, htok1, htok2]
    show s.buf.take (sl_cspan s d)
        ++ (s.buf.drop (sl_cspan s d)).take
            (sl_span (slice_suffix s (sl_cspan s d)) d)
        ++ ((s.buf.drop (sl_cspan s d)).drop
              (sl_span (slice_suffix s (sl_cspan s d)) d)).take
            (s.len - sl_cspan s d
              - sl_span (slice_suffix s (sl_cspan s d)) d)
      = s.buf.take s.len
    exact haux.1
  · rw [hrestlen, htok1, htok2]
    show sl_cspan s d + sl_span (slice_suffix s (sl_cspan s d)) d
        + (s.len - sl_cspan s d
            - sl_span (slice_suffix s (sl_cspan s d)) d)
      = s.len
    omega
  · rw [htok1]
    exact haux.2.1
  · rw [hrun]
    exact haux.2.2

/-- Claim C6: on a well-formed frame the block reader fills the node table
with exactly `nv*nn` leading values in file order (variable-major: the
value for variable v, node k lands at flat index `v*nn + k`), then fills
the cell table from flat offset `2*nc` with the next `(cv-2)*nc` values,
leaving the first two variable-slots zeroed for the interpolation engine,
and consumes exactly `nv*nn + (cv-2)*nc` values. -/
theorem c6_numeric_block_reader (nv nn cv nc : Nat) (vals : List ℚ)
    (hcv : 2 ≤ cv) (hlen : nv*nn + (cv-2)*nc ≤ vals.length) :
    readDataBlocks nv nn cv nc vals
      = (vals.take (nv*nn),
         List.replicate (2*nc) 0 ++ (vals.drop (nv*nn)).take ((cv-2)*nc),
         vals.drop (nv*nn + (cv-2)*nc))
    ∧ (∀ v k, v < nv → k < nn →
        (readDataBlocks nv nn cv nc vals).1.getD (v*nn + k) 0
          = vals.getD (v*nn + k) 0) := by
  have h2cv : 2*nc ≤ cv*nc := Nat.mul_le_mul_right nc hcv
  have hsub : cv*nc - 2*nc = (cv-2)*nc := by
    rw [Nat.sub_mul]
  have hnv : nv*nn ≤ vals.length := by omega
  have hfill1 := fillRange_spec (nv*nn) (List.replicate (nv*nn) (0:ℚ)) 0 vals
      (by simp) hnv
  have hfill2 := fillRange_spec (cv*nc - 2*nc) (List.replicate (cv*nc) (0:ℚ))
      (2*nc) (vals.drop (nv*nn)) (by simp; omega) (by simp [hsub]; omega)
  have hmain : readDataBlocks nv nn cv nc vals
      = (vals.take (nv*nn),
         List.replicate (2*nc) 0 ++ (vals.drop (nv*nn)).take ((cv-2)*nc),
         vals.drop (nv*nn + (cv-2)*nc)) := by
    simp only [readDataBlocks]
    rw [hfill1]
    dsimp only
    rw [hfill2]
    dsimp only
    rw [hsub, (by omega : 2*nc + (cv-2)*nc = cv*nc)]
    simp [List.take_replicate, List.drop_replicate, List.drop_drop,
      Nat.min_eq_left h2cv]
  refine ⟨hmain, ?_⟩
  intro v k hv hk
  have hidx : v*nn + k < nv*nn := by
    have h1 : (v+1)*nn ≤ nv*nn := Nat.mul_le_mul_right nn (by omega)
    have h2 : (v+1)*nn = v*nn + nn := by ring
    omega
  have h1 : (readDataBlocks nv nn cv nc vals).1 = vals.take (nv*nn) := by
    rw [hmain]
  rw [h1, List.getD_eq_getElem?_getD, List.getD_eq_getElem?_getD,
    List.getElem?_take, if_pos hidx]

/-- Claim C6 witness: one nodal variable over two nodes and one native
cell variable over one element, read from the value stream 5, 6, 7, 8. -/
theorem c6_numeric_block_reader_witness :
    (2 ≤ 3 ∧ 1*2 + (3-2)*1 ≤ ([5, 6, 7, 8] : List ℚ).length)
    ∧ readDataBlocks 1 2 3 1 [5, 6, 7, 8]
        = (([5, 6, 7, 8] : List ℚ).take (1*2),
           List.replicate (2*1) 0
             ++ (([5, 6, 7, 8] : List ℚ).drop (1*2)).take ((3-2)*1),
           ([5, 6, 7, 8] : List ℚ).drop (1*2 + (3-2)*1)) :=
  ⟨⟨by norm_num, by norm_num⟩,
   (c6_numeric_block_reader 1 2 3 1 [5, 6, 7, 8]
     (by norm_num) (by norm_num)).1⟩

/-- Summing after dividing every entry is dividing the sum. -/
theorem sum_map_div (l : List ℚ) (c : ℚ) :
    (l.map (fun w => w / c)).sum = l.sum / c := by
  induction l with
  | nil => simp
  | cons x xs ih => simp [ih, add_div]

/-- Claim C5: for an element whose four node-to-center squared distances
are all nonzero, the normalised interpolation weights sum to exactly 1
over exact field arithmetic, hence within the 1e-9 absolute tolerance the
spec asks for. -/
theorem c5_normalized_weights_sum_to_one (zn rn : List ℚ)
    (hz : zn.length = 4) (hr : rn.length = 4)
    (hnd : ∀ p ∈ List.zip zn rn,
        dist2 p.1 p.2 (cellCenter zn) (cellCenter rn) ≠ 0) :
    |(normWeights zn rn).sum - 1| ≤ 1 / 1000000000 := by
  have hpos : ∀ w ∈ rawWeights zn rn, 0 < w := by
    intro w hw
    obtain ⟨p, hp, rfl⟩ := List.mem_map.1 hw
    have hd0 : (0:ℚ) ≤ dist2 p.1 p.2 (cellCenter zn) (cellCenter rn) := by
      unfold dist2
      exact add_nonneg (mul_self_nonneg _) (mul_self_nonneg _)
    exact one_div_pos.2 (lt_of_le_of_ne hd0 (Ne.symm (hnd p hp)))
  have hlen4 : (rawWeights zn rn).length = 4 := by
    simp [rawWeights, hz, hr]
  have hne : rawWeights zn rn ≠ [] := by
    intro h0
    rw [h0] at hlen4
    simp at hlen4
  have hsum : 0 < sumWeights zn rn := List.sum_pos _ hpos hne
  have hsum_eq : (normWeights zn rn).sum = 1 := by
    unfold normWeights
    rw [sum_map_div]
    exact div_self (ne_of_gt hsum)
  rw [hsum_eq]
  norm_num

/-- Claim C5 witness: the unit-square element scaled by 4 (nodes (0,0),
(4,0), (4,4), (0,4)): center (2,2), all squared distances 8, weights
1/4 each. -/
theorem c5_normalized_weights_sum_to_one_witness :
    (∀ p ∈ List.zip ([0, 4, 4, 0] : List ℚ) ([0, 0, 4, 4] : List ℚ),
        dist2 p.1 p.2 (cellCenter [0, 4, 4, 0]) (cellCenter [0, 0, 4, 4]) ≠ 0)
    ∧ |(normWeights [0, 4, 4, 0] [0, 0, 4, 4]).sum - 1| ≤ 1 / 1000000000 := by
  have hnd : ∀ p ∈ List.zip ([0, 4, 4, 0] : List ℚ) ([0, 0, 4, 4] : List ℚ),
      dist2 p.1 p.2 (cellCenter [0, 4, 4, 0]) (cellCenter [0, 0, 4, 4]) ≠ 0 := by
    intro p hp
    simp only [List.zip_cons_cons, List.zip_nil_right, List.mem_cons,
      List.not_mem_nil, or_false] at hp
    rcases hp with rfl | rfl | rfl | rfl <;>
      norm_num [dist2, cellCenter, List.foldl_cons, List.foldl_nil]
  exact ⟨hnd, c5_normalized_weights_sum_to_one _ _ rfl rfl hnd⟩

end ParseHall
